import Mathlib

/-!
Verification of the pyLunchbox GPU batch memory allocator.

Shallow embedding of `src/pylunchbox/core/memory.py`: the `MemoryChunk`
doubly-linked chunk chain, the `MemoryManager` free-list allocator
(`allocate`, `remove` with its three adjacency cases, `defrag_quick`,
`defrag_full`) and the `StaticBatch` façade.

Modelling conventions:

* The doubly-linked chunk chain is represented as a `List MemoryChunk`
  ordered head → tail; the `_previous`/`_next` pointers of a node are the
  list neighbours, and the manager's `_last` pointer is the list's last
  element (every operation of the source maintains exactly this shape).
  The pointer-level `set_next`/`set_previous` methods are additionally
  modelled verbatim on a node heap (`ChunkNode`, below) for the claims
  that are about them.
* The free list `_empty` is the list of the `_id` fields of its member
  chunk objects, in Python list order.  Python's `list.remove(x)`
  (removal of the first occurrence, identity equality) is `List.erase`
  of the id.
* Data blobs are modelled by their length `n` (the allocator reads
  nothing else from them); the numpy staging array and the GPU buffer
  uploads (`__store_to_gpu`) carry no chunk-chain state and are not
  modelled.
* Machine integers: Python 2 has arbitrary-precision `int`, so indices
  are `Int` (chunk bounds can become negative through
  `shrink(-length)`), and `/` on ints is floor division (`Int.fdiv`).
* A Python run that raises an exception (`AttributeError`,
  `ValueError`, `IndexError`) produces no successor state; operations
  that can raise return `Option` and model a raise as `none`.
* `MemoryChunk._COUNT` (global monotone id counter) is a per-manager
  `count` field; it is only used to give every created chunk a fresh id.
-/

/-- Model of `MemoryChunk`: one contiguous region
`[index_first, index_last)` of the batch buffer, tagged gap/occupied.
The `_previous`/`_next` link fields are represented by list adjacency in
`MemoryManager.chain`; `_ref` (the opaque data back-reference) carries no
allocator state and is dropped. -/
structure MemoryChunk where
  index_first : Int
  index_last : Int
  is_gap : Bool
  id : Nat
deriving Repr, DecidableEq, Inhabited

namespace MemoryChunk

/-- Source `MemoryChunk.get_length`: `self._index_last - self._index_first`. -/
def get_length (c : MemoryChunk) : Int :=
  c.index_last - c.index_first

/-- Source `MemoryChunk.create_empty_chunk(start, length)`.  The source body is
`return MemoryChunk(0, 0, True)`: both parameters are ignored and the
created gap always has bounds `(0, 0)`. -/
def create_empty_chunk (_start _length : Int) (id : Nat) : MemoryChunk :=
  { index_first := 0, index_last := 0, is_gap := true, id := id }

/-- Source `MemoryChunk.create_data_chunk(start, data)`:
`MemoryChunk(start, len(data), False, data)`. -/
def create_data_chunk (start : Int) (n : Nat) (id : Nat) : MemoryChunk :=
  { index_first := start, index_last := start + (n : Int), is_gap := false, id := id }

end MemoryChunk

/-- Locate a chunk object in the chain by its id: returns the chain
position together with the chunk.  (In Python the caller simply holds
the object; positions exist only in the list model.) -/
def find_chunk : List MemoryChunk → Nat → Option (Nat × MemoryChunk)
  | [], _ => none
  | c :: cs, cid =>
    if c.id = cid then some (0, c)
    else (find_chunk cs cid).map (fun p => (p.1 + 1, p.2))

/-- Model of `MemoryManager`.  `chain` is the doubly-linked chunk chain
(head → tail; `_last` is its last element), `empty` is `_empty` as a
list of chunk ids, `index_last` is `_index_last` (the write cursor),
`count` is the chunk-id counter.  The numpy array `_data` and the
vao/vbo handles carry no chain state and are not modelled. -/
structure MemoryManager where
  max_size : Nat
  stride : Nat
  chain : List MemoryChunk
  empty : List Nat
  index_last : Int
  count : Nat
deriving Repr, DecidableEq

namespace MemoryManager

/-- Source constructor `MemoryManager(max_size, stride)`: fresh manager, no chunks. -/
def init (max_size stride : Nat) : MemoryManager :=
  { max_size := max_size, stride := stride, chain := [], empty := [],
    index_last := 0, count := 0 }

/-- The capacity test of `allocate`:
`(len(data) + self._index_last) / self._stride > self._max_size`
(Python 2 `/` on ints is floor division). -/
def is_full (s : MemoryManager) (n : Nat) : Bool :=
  (s.max_size : Int) < Int.fdiv ((n : Int) + s.index_last) (s.stride : Int)

/-- The per-gap test of the `allocate` scan:
`if chunk.get_length() >= len(data)` for the free-list member with id
`cid`, giving the gap and its chain position when it fits.  A free-list
id with no chain member (never reachable: the free list always points
into the chain) does not fit. -/
def fit_test (s : MemoryManager) (n : Nat) (cid : Nat) : Option (Nat × MemoryChunk) :=
  match find_chunk s.chain cid with
  | some (j, c) => if (n : Int) ≤ c.get_length then some (j, c) else none
  | none => none

/-- The first-fit scan of `allocate`:
`for chunk in self._empty: if chunk.get_length() >= len(data): ...` —
the first free-list member (in `_empty` order) whose length is at least
`n`, returned with its chain position. -/
def first_fit (s : MemoryManager) (n : Nat) : Option (Nat × MemoryChunk) :=
  s.empty.findSome? (s.fit_test n)

/-- Source `MemoryManager.allocate(data)` for a blob of length `n`.  Returns the
new state and `some chunk`, or the unchanged state and `none` when the
batch is full (`print "ERROR: Batch is full!"; return None`).

Gap reuse is `__store_data` + `MemoryChunk.insert_into`:
* `__store_data(chunk.get_index_first(), data)` builds
  `create_data_chunk(self._index_last, data)` — its `start` argument is
  unused, the new chunk's bounds start at the write cursor;
* `insert_into` links the new chunk between the gap's `_previous` and
  the gap itself (`chunk.set_next(self)`), then either drops the gap
  from the free list (`get_length()` equal — the gap node stays linked
  in the chain) or shrinks the gap's front by the data length.

The append branch is `__store_data(self._index_last, data)` +
`MemoryChunk.append(new_chunk, self._last)`; the write cursor advances
by `n`. -/
def allocate (s : MemoryManager) (n : Nat) : MemoryManager × Option MemoryChunk :=
  if s.is_full n then
    (s, none)
  else
    let new_chunk := MemoryChunk.create_data_chunk s.index_last n s.count
    match s.first_fit n with
    | some (j, g) =>
      if g.get_length = (n : Int) then
        ({ s with chain := s.chain.take j ++ [new_chunk, g] ++ s.chain.drop (j + 1),
                  empty := s.empty.erase g.id,
                  count := s.count + 1 }, some new_chunk)
      else
        ({ s with chain := s.chain.take j
                    ++ [new_chunk, { g with index_first := g.index_first + (n : Int) }]
                    ++ s.chain.drop (j + 1),
                  count := s.count + 1 }, some new_chunk)
    | none =>
      ({ s with chain := s.chain ++ [new_chunk],
                index_last := s.index_last + (n : Int),
                count := s.count + 1 }, some new_chunk)

/-- Source `MemoryManager.__remove_last(chunk, next_, prev)`: the removed chunk
is the chain tail (position `i = chain.length - 1`).  If `prev` is a
gap, both the chunk and the gap leave the chain, the gap leaves the free
list, and the write cursor drops by both lengths; otherwise only the
chunk leaves and the cursor drops by its length. -/
def remove_last (s : MemoryManager) (i : Nat) (chunk : MemoryChunk)
    (prev : Option MemoryChunk) : MemoryManager :=
  match prev with
  | some p =>
    if p.is_gap then
      { s with chain := s.chain.take (i - 1),
               empty := s.empty.erase p.id,
               index_last := s.index_last - (chunk.get_length + p.get_length) }
    else
      { s with chain := s.chain.take i,
               index_last := s.index_last - chunk.get_length }
  | none =>
    { s with chain := s.chain.take i,
             index_last := s.index_last - chunk.get_length }

/-- Source `MemoryManager.__remove_near_gap(chunk, next_, prev)`: the chunk at
position `i` has a gap `nx` as its `_next`.  If `prev` is also a gap the
three dissolve into `prev` (`nx` leaves chain and free list); otherwise
`nx` absorbs the chunk by `shrink(-length)` (its front moves back). -/
def remove_near_gap (s : MemoryManager) (i : Nat) (chunk nx : MemoryChunk)
    (prev : Option MemoryChunk) : MemoryManager :=
  match prev with
  | some p =>
    if p.is_gap then
      { s with chain := s.chain.take (i - 1)
                 ++ [{ p with index_last := p.index_last + (chunk.get_length + nx.get_length) }]
                 ++ s.chain.drop (i + 2),
               empty := s.empty.erase nx.id }
    else
      { s with chain := s.chain.take i
                 ++ [{ nx with index_first := nx.index_first - chunk.get_length }]
                 ++ s.chain.drop (i + 2) }
  | none =>
    { s with chain := s.chain.take i
               ++ [{ nx with index_first := nx.index_first - chunk.get_length }]
               ++ s.chain.drop (i + 2) }

/-- Source `MemoryManager.__remove_near_data(chunk, next_, prev)`: the chunk at
position `i` has an occupied `_next`.  If `prev` is a gap it expands
over the chunk; otherwise (case D) a brand-new gap built by
`create_empty_chunk(chunk.get_index_first(), chunk.get_length())` —
which ignores those arguments and has bounds `(0,0)` — replaces the
chunk in the chain and is appended to the free list. -/
def remove_near_data (s : MemoryManager) (i : Nat) (chunk : MemoryChunk)
    (prev : Option MemoryChunk) : MemoryManager :=
  match prev with
  | some p =>
    if p.is_gap then
      { s with chain := s.chain.take (i - 1)
                 ++ [{ p with index_last := p.index_last + chunk.get_length }]
                 ++ s.chain.drop (i + 1) }
    else
      let gap := MemoryChunk.create_empty_chunk chunk.index_first chunk.get_length s.count
      { s with chain := s.chain.take i ++ [gap] ++ s.chain.drop (i + 1),
               empty := s.empty ++ [gap.id],
               count := s.count + 1 }
  | none =>
    let gap := MemoryChunk.create_empty_chunk chunk.index_first chunk.get_length s.count
    { s with chain := s.chain.take i ++ [gap] ++ s.chain.drop (i + 1),
             empty := s.empty ++ [gap.id],
             count := s.count + 1 }

/-- Source `MemoryManager.remove(chunk)` for the chunk at chain position `i`:
dispatches on `chunk.get_next()` / `get_next().is_gap()` to one of the
three cases.  A position outside the chain is outside the modelled API
(the caller holds a live chunk handle) and leaves the state unchanged. -/
def remove (s : MemoryManager) (i : Nat) : MemoryManager :=
  match s.chain[i]? with
  | none => s
  | some chunk =>
    let prev : Option MemoryChunk := if i = 0 then none else s.chain[i - 1]?
    match s.chain[i + 1]? with
    | none => s.remove_last i chunk prev
    | some nx =>
      if nx.is_gap then s.remove_near_gap i chunk nx prev
      else s.remove_near_data i chunk prev

/-- Source `MemoryManager.defrag_quick()`.  With an empty free list it
returns `False` and mutates nothing (the early `return False` precedes
every other statement).  Otherwise it pops the first gap; no such call
returns normally, because every path raises before producing a result:

* if the popped gap was the chain tail, `removed.get_next()` is `None`
  and `removed.get_next().set_previous(...)` raises `AttributeError`;
* if `current = removed.get_next()` is a gap, the walk
  `while current is not None and current.is_gap() and ...` runs and its
  body `accum.append(current.get_data())` raises `AttributeError`
  (`MemoryChunk` has no `get_data` method);
* otherwise the loop never runs and both remaining branches call
  `self.__store_to_gpu(removed.get_index_first(), accum)` with `accum`
  still a plain Python list (the source's own TODO notes it is never
  flattened): `Vbo.upload_sub` immediately evaluates `data.nbytes`,
  which a list does not have, raising `AttributeError` — in the
  chain-end branch directly, and in the other branch before the `(0,0)`
  bubble is ever built.

A raise is modelled as `none`, so the call is modelled exactly like
`defrag_full`: a result only for an empty free list. -/
def defrag_quick (s : MemoryManager) : Option (MemoryManager × Bool) :=
  match s.empty with
  | [] => some (s, false)
  | _ :: _ => none

/-- Source `MemoryManager.defrag_full()`.  With an empty free list it returns
`False` and mutates nothing.  Otherwise it pops the first gap
(`AttributeError` if the gap is the chain tail, as in `defrag_quick`)
and enters the drain loop with `current = removed.get_next()`:

* if `current` is occupied, the loop's final branch runs
  `accum.append(current.get_data())` and raises `AttributeError`
  (`MemoryChunk` has no `get_data` method);
* if `current` is a gap (impossible next to a gap in any reachable
  state — proved below), the loop keeps popping `self._empty.pop(0)`
  while traversing; every such execution again reaches `get_data`, pops
  from an exhausted free list (`IndexError`), or dereferences a `None`
  neighbour, unless the free list repeats ids — which no reachable
  state does, since every inserted id is fresh.

So no call with a nonempty free list returns normally; modelled as
`none`. -/
def defrag_full (s : MemoryManager) : Option (MemoryManager × Bool) :=
  match s.empty with
  | [] => some (s, false)
  | _ :: _ => none

end MemoryManager

/-- The states reachable from a fresh `MemoryManager` by any finite
sequence of `allocate`, `remove` (of a currently live occupied chunk),
`defrag_quick` and `defrag_full` calls; a call that raises has no
successor state. -/
inductive Reachable : MemoryManager → Prop where
  | init (max_size stride : Nat) : Reachable (MemoryManager.init max_size stride)
  | alloc (s : MemoryManager) (n : Nat) :
      Reachable s → Reachable (s.allocate n).1
  | rm (s : MemoryManager) (i : Nat) (c : MemoryChunk) :
      Reachable s → s.chain[i]? = some c → c.is_gap = false →
      Reachable (s.remove i)
  | quick (s s' : MemoryManager) (b : Bool) :
      Reachable s → s.defrag_quick = some (s', b) → Reachable s'
  | full (s s' : MemoryManager) (b : Bool) :
      Reachable s → s.defrag_full = some (s', b) → Reachable s'

/-- No two adjacent chunks of a chain are both gaps. -/
def NoAdjGaps (l : List MemoryChunk) : Prop :=
  l.Chain' (fun a b => ¬(a.is_gap = true ∧ b.is_gap = true))

/-- Chain contiguity: every link satisfies `a.last = b.first`, the head
starts at `0` and the tail ends at the write cursor — i.e. the chunk
spans tile `[0, write_cursor)` exactly. -/
def Contiguous (s : MemoryManager) : Prop :=
  s.chain.Chain' (fun a b => a.index_last = b.index_first) ∧
  (s.chain = [] ∧ s.index_last = 0 ∨
    s.chain.head?.map MemoryChunk.index_first = some 0 ∧
    s.chain.getLast?.map MemoryChunk.index_last = some s.index_last)


/-- The inductive invariant of the allocator state, proved below to hold
in every reachable state:
* no two adjacent chunks of the chain are gaps;
* the chain tail is never a gap (tail space is reclaimed, not kept);
* every free-list id denotes a gap chunk that is linked in the chain;
* chain chunk ids are pairwise distinct, and so are free-list ids;
* every chain id is below the id counter (freshness). -/
structure AllocInv (s : MemoryManager) : Prop where
  no_adj : NoAdjGaps s.chain
  tail_occ : ∀ c, s.chain.getLast? = some c → c.is_gap = false
  mem_empty : ∀ cid ∈ s.empty, ∃ c, c ∈ s.chain ∧ c.id = cid ∧ c.is_gap = true
  nodup_chain : (s.chain.map MemoryChunk.id).Nodup
  nodup_empty : s.empty.Nodup
  id_bound : ∀ c ∈ s.chain, c.id < s.count

/-! ## Pointer-level model of `set_next` / `set_previous`

`MemoryChunk.set_next`/`set_previous` mutate the `_next`/`_previous`
object references of heap-allocated nodes.  To state their claim
faithfully (including aliasing) they are modelled verbatim on a node
heap: a partial map from node ids to node records carrying explicit
`prev`/`next` id references. -/

/-- A `MemoryChunk` object with its two explicit link fields. -/
structure ChunkNode where
  index_first : Int
  index_last : Int
  is_gap : Bool
  prev : Option Nat
  next : Option Nat
  id : Nat
deriving Repr, DecidableEq

/-- Source `get_next`: the `_next` reference. -/
def ChunkNode.get_next (c : ChunkNode) : Option Nat := c.next

/-- Source `get_previous`: the `_previous` reference. -/
def ChunkNode.get_previous (c : ChunkNode) : Option Nat := c.prev

/-- Store a node record at an id of the heap. -/
def hset (h : Nat → Option ChunkNode) (i : Nat) (c : ChunkNode) :
    Nat → Option ChunkNode :=
  fun j => if j = i then some c else h j

/-- Source `set_previous(self, previous, cont=False)`: only `self._previous`
is assigned. -/
def set_previous_raw (h : Nat → Option ChunkNode) (selfId : Nat)
    (pv : Option Nat) : Nat → Option ChunkNode :=
  match h selfId with
  | none => h
  | some c => hset h selfId { c with prev := pv }

/-- Source `set_next(self, next_, cont=False)`: only `self._next` is
assigned. -/
def set_next_raw (h : Nat → Option ChunkNode) (selfId : Nat)
    (nx : Option Nat) : Nat → Option ChunkNode :=
  match h selfId with
  | none => h
  | some c => hset h selfId { c with next := nx }

/-- Source `MemoryChunk.set_next(self, next_, cont=True)`:
`self._next = next_; if next_ is not None and cont:
next_.set_previous(self, False)`. -/
def heap_set_next (h : Nat → Option ChunkNode) (selfId : Nat)
    (nx : Option Nat) (cont : Bool) : Nat → Option ChunkNode :=
  match h selfId with
  | none => h
  | some c =>
    let h1 := hset h selfId { c with next := nx }
    match nx, cont with
    | some nid, true => set_previous_raw h1 nid (some selfId)
    | _, _ => h1

/-- Source `MemoryChunk.set_previous(self, previous, cont=True)`:
`self._previous = previous; if previous is not None and cont:
previous.set_next(self, False)`. -/
def heap_set_previous (h : Nat → Option ChunkNode) (selfId : Nat)
    (pv : Option Nat) (cont : Bool) : Nat → Option ChunkNode :=
  match h selfId with
  | none => h
  | some c =>
    let h1 := hset h selfId { c with prev := pv }
    match pv, cont with
    | some pid, true => set_next_raw h1 pid (some selfId)
    | _, _ => h1

/-! ## The `StaticBatch` façade -/

/-- Model of `StaticBatch`: the managed allocator plus `_entity_map`,
the map from entity (owner) ids to their chunks, here an association
list entity id → chunk id, empty at construction.  The world/mesh
component lookup is external; `add` receives the length of the packed
blob directly. -/
structure StaticBatch where
  manager : MemoryManager
  entity_map : List (Nat × Nat)
deriving Repr, DecidableEq

/-- Source `StaticBatch.add(entity)`: pulls the entity's packed mesh data and
calls `self._manager.allocate(data)`.  The source discards the returned
chunk and never writes `self._entity_map`. -/
def StaticBatch.add (b : StaticBatch) (_entity : Nat) (n : Nat) : StaticBatch :=
  { b with manager := (b.manager.allocate n).1 }

/-- Source `StaticBatch.remove(entity)`: if the entity is a key of
`_entity_map`, call `self._manager.remove` on its chunk and delete the
map entry; otherwise do nothing. -/
def StaticBatch.remove (b : StaticBatch) (entity : Nat) : StaticBatch :=
  match b.entity_map.find? (fun p => p.1 == entity) with
  | some p =>
    let mgr :=
      match find_chunk b.manager.chain p.2 with
      | some (i, _) => b.manager.remove i
      | none => b.manager
    { manager := mgr,
      entity_map := b.entity_map.filter (fun q => ¬ q.1 == entity) }
  | none => b

/-! ## Concrete execution traces

States reached from a fresh `MemoryManager(100, 8)` by short call
sequences; used by several theorems below. -/

/-- A fresh `MemoryManager(max_size=100, stride=8)`. -/
def ex0 : MemoryManager := MemoryManager.init 100 8

/-- After `allocate` of two blobs of length 1: chunks `[0,1)` `[1,2)`. -/
def ex_two : MemoryManager := ((ex0.allocate 1).1.allocate 1).1

/-- After a third `allocate` of length 1: chunks `[0,1)` `[1,2)` `[2,3)`. -/
def ex_three : MemoryManager := (ex_two.allocate 1).1

/-- After a fourth `allocate` of length 1. -/
def ex_four : MemoryManager := (ex_three.allocate 1).1

/-- State `ex_two` after removing the head chunk `[0,1)` (case D: next is
occupied, no previous). -/
def exC2state : MemoryManager := ex_two.remove 0

/-- State `ex_three` after removing the middle chunk `[1,2)` (case D: both
neighbours occupied). -/
def exC6state : MemoryManager := ex_three.remove 1

/-- State `exC6state` after removing its tail chunk (whose previous is the
gap): tail-case merge. -/
def exC7state : MemoryManager := exC6state.remove 2

/-- State `ex_four` after removing chunk 1 and then chunk 2: chain
`[0,1) gap(0,1) [3,4)`, free list holding the (expanded) gap of
length 1, write cursor 4. -/
def ex_gap1 : MemoryManager := (ex_four.remove 1).remove 2

/-- State and chunk returned by `ex_gap1.allocate 1`: an allocation
that reuses the gap of exactly equal length. -/
def exC5out : MemoryManager × Option MemoryChunk := ex_gap1.allocate 1


/-! ## General helper lemmas on lists and chains -/

/-- Adjacent elements of a `Chain'` list satisfy the relation. -/
theorem chain'_adjacent {α : Type _} {R : α → α → Prop} {l : List α}
    {i : Nat} {a b : α} (hc : l.Chain' R)
    (ha : l[i]? = some a) (hb : l[i + 1]? = some b) : R a b := by
  have hib : i + 1 < l.length := by
    by_contra hcon
    rw [List.getElem?_eq_none (Nat.le_of_not_lt hcon)] at hb
    exact Option.noConfusion hb
  have hia : i < l.length := Nat.lt_of_succ_lt hib
  rw [List.getElem?_eq_getElem hia] at ha
  rw [List.getElem?_eq_getElem hib] at hb
  have h := List.chain'_iff_get.mp hc i (by omega)
  simpa [List.get_eq_getElem, Option.some_inj.mp ha, Option.some_inj.mp hb] using h

/-- A `Chain'` holds on any take-front of the list. -/
theorem chain'_take {α : Type _} {R : α → α → Prop} {l : List α}
    (h : l.Chain' R) (i : Nat) : (l.take i).Chain' R := by
  have h' := h
  rw [← List.take_append_drop i l] at h'
  exact List.Chain'.left_of_append h'

/-- A `Chain'` holds on any drop-tail of the list. -/
theorem chain'_drop {α : Type _} {R : α → α → Prop} {l : List α}
    (h : l.Chain' R) (i : Nat) : (l.drop i).Chain' R := by
  have h' := h
  rw [← List.take_append_drop i l] at h'
  exact List.Chain'.right_of_append h'

/-- The last entry of a nonempty take-front. -/
theorem getLast?_take_eq {α : Type _} (l : List α) (i : Nat)
    (h1 : 0 < i) (h2 : i ≤ l.length) : (l.take i).getLast? = l[i - 1]? := by
  rw [List.getLast?_eq_getElem?, List.length_take, Nat.min_eq_left h2,
    List.getElem?_take, if_pos (Nat.sub_lt h1 Nat.one_pos)]

/-- The last entry of a drop-tail that is still nonempty. -/
theorem getLast?_drop_eq {α : Type _} (l : List α) (i : Nat)
    (h : i < l.length) : (l.drop i).getLast? = l.getLast? := by
  rw [List.getLast?_eq_getElem?, List.getLast?_eq_getElem?, List.length_drop,
    List.getElem?_drop]
  have he : i + (l.length - i - 1) = l.length - 1 := by omega
  rw [he]

/-- Membership in a take-front, from a position below the cut. -/
theorem mem_take_of_getElem? {α : Type _} {l : List α} {c : α} {k i : Nat}
    (hk : l[k]? = some c) (h : k < i) : c ∈ l.take i := by
  exact List.mem_iff_getElem?.mpr ⟨k, by rw [List.getElem?_take, if_pos h]; exact hk⟩

/-- Membership in a drop-tail, from a position at or past the cut. -/
theorem mem_drop_of_getElem? {α : Type _} {l : List α} {c : α} {k i : Nat}
    (hk : l[k]? = some c) (h : i ≤ k) : c ∈ l.drop i := by
  refine List.mem_iff_getElem?.mpr ⟨k - i, ?_⟩
  rw [List.getElem?_drop]
  have he : i + (k - i) = k := by omega
  rw [he]; exact hk

/-- Splicing a middle list `M` over positions `[a, b)` of a `Chain'`
list preserves `Chain'`, given the two seam conditions (and the merged
seam when `M` is empty). -/
theorem chain'_surgery {α : Type _} {R : α → α → Prop} {l M : List α} {a b : Nat}
    (hl : l.Chain' R) (hM : M.Chain' R)
    (hleft : ∀ x y, (l.take a).getLast? = some x → M.head? = some y → R x y)
    (hright : ∀ x y, M.getLast? = some x → l[b]? = some y → R x y)
    (hskip : ∀ x y, M = [] → (l.take a).getLast? = some x → l[b]? = some y → R x y) :
    (l.take a ++ M ++ l.drop b).Chain' R := by
  rw [List.append_assoc]
  refine List.chain'_append.mpr ⟨chain'_take hl a, ?_, ?_⟩
  · refine List.chain'_append.mpr ⟨hM, chain'_drop hl b, ?_⟩
    intro x hx y hy
    rw [List.head?_drop] at hy
    exact hright x y hx hy
  · intro x hx y hy
    cases hMc : M with
    | nil =>
      subst hMc
      rw [List.nil_append, List.head?_drop] at hy
      exact hskip x y rfl hx hy
    | cons m ms =>
      subst hMc
      rw [List.cons_append, List.head?_cons] at hy
      exact hleft x y hx (by rw [List.head?_cons, hy])

/-! ## Reachability of the concrete trace states -/

/-- The two-allocation state is reachable. -/
theorem reach_ex_two : Reachable ex_two :=
  Reachable.alloc _ 1 (Reachable.alloc _ 1 (Reachable.init 100 8))

/-- The three-allocation state is reachable. -/
theorem reach_ex_three : Reachable ex_three :=
  Reachable.alloc _ 1 reach_ex_two

/-- The four-allocation state is reachable. -/
theorem reach_ex_four : Reachable ex_four :=
  Reachable.alloc _ 1 reach_ex_three

/-- The state with the length-1 gap between two occupied chunks is
reachable. -/
theorem reach_ex_gap1 : Reachable ex_gap1 :=
  Reachable.rm (ex_four.remove 1) 2 ⟨2, 3, false, 2⟩
    (Reachable.rm ex_four 1 ⟨1, 2, false, 1⟩ reach_ex_four (by decide) (by decide))
    (by decide) (by decide)

/-- The case-D state of `ex_three` is reachable. -/
theorem reach_exC6state : Reachable exC6state :=
  Reachable.rm ex_three 1 ⟨1, 2, false, 1⟩ reach_ex_three (by decide) (by decide)

/-! ## Claim C2: chain contiguity -/

/-- C2.  The claim that after any sequence of allocate/remove/defrag
calls the chain is contiguous and tiles `[0, write_cursor)` is false on
the code: removing the head chunk `[0,1)` of the two-chunk chain
replaces it (case D) with the gap produced by `create_empty_chunk`,
whose bounds are `(0,0)` because that constructor ignores its
arguments; the chain then has a hole (`gap.last = 0` but
`next.first = 1`) and no chunk covers `[0,1)`. -/
theorem C2_contiguity_fails :
    Reachable exC2state
    ∧ exC2state.chain =
        [⟨0, 0, true, 2⟩, ⟨1, 2, false, 1⟩]
    ∧ exC2state.index_last = 2
    ∧ ¬ Contiguous exC2state :=
  ⟨Reachable.rm ex_two 0 ⟨0, 1, false, 0⟩ reach_ex_two (by decide) (by decide),
   by decide, by decide, fun hC => by
    have h1 := hC.1
    rw [(by decide : exC2state.chain = [⟨0, 0, true, 2⟩, ⟨1, 2, false, 1⟩])] at h1
    exact absurd (List.chain'_cons.mp h1).1 (by decide)⟩

/-! ## Claim C3: the capacity ceiling -/

/-- C3, counterexample.  On a fresh `MemoryManager(max_size=1, stride=8)`
(capacity `1 * 8 = 8` elements), allocating a blob of length `9` — one
unit more than the remaining space — succeeds and leaves
`write_cursor = 9 > 8`: the claim that allocate can never push the
write cursor past capacity and must fail one unit over the boundary is
false, because the capacity test divides by the stride with floor
division. -/
theorem C3_counterexample :
    Reachable (MemoryManager.init 1 8)
    ∧ ((MemoryManager.init 1 8).allocate 9).2.isSome = true
    ∧ ((MemoryManager.init 1 8).allocate 9).1.index_last = 9
    ∧ (((MemoryManager.init 1 8).allocate 9).1.max_size *
        ((MemoryManager.init 1 8).allocate 9).1.stride : Int) <
        ((MemoryManager.init 1 8).allocate 9).1.index_last :=
  ⟨Reachable.init 1 8, by decide, by decide, by decide⟩

/-- C3, amended.  The capacity test of `allocate` is
`⌊(n + write_cursor) / stride⌋ > max_size`: when it holds, allocate
fails returning no chunk and mutating nothing; when it does not hold,
allocate succeeds and returns a chunk.  At the exact boundary
`n + write_cursor = max_size * stride` the test never holds (so the
boundary allocation succeeds), but for `stride > 1` an overshoot of up
to `stride - 1` elements beyond capacity is also accepted. -/
theorem C3_amended_capacity (s : MemoryManager) (n : Nat) :
    (s.is_full n = true → s.allocate n = (s, none))
    ∧ (s.is_full n = false → ((s.allocate n).2).isSome = true)
    ∧ (s.stride ≠ 0 →
        (n : Int) + s.index_last = (s.max_size : Int) * (s.stride : Int) →
        s.is_full n = false) := by
  refine ⟨?_, ?_, ?_⟩
  · intro h
    simp [MemoryManager.allocate, h]
  · intro h
    simp only [MemoryManager.allocate, h, Bool.false_eq_true, if_false]
    cases hf : s.first_fit n with
    | none => simp
    | some p =>
      cases p with
      | mk j g => by_cases hg : g.get_length = (n : Int) <;> simp [hg]
  · intro hs h
    have hz : (s.stride : Int) ≠ 0 := Int.natCast_ne_zero.mpr hs
    simp only [MemoryManager.is_full, h, Int.mul_fdiv_cancel _ hz]
    simp

/-- Witness for the amended C3: on `MemoryManager(1, 8)`, a length-17
request fails without mutation, and the exact-boundary length-8 request
passes the capacity test and succeeds. -/
theorem C3_amended_capacity_witness :
    (MemoryManager.init 1 8).allocate 17 = (MemoryManager.init 1 8, none)
    ∧ (((MemoryManager.init 1 8).allocate 8).2).isSome = true
    ∧ (MemoryManager.init 1 8).is_full 8 = false :=
  ⟨(C3_amended_capacity (MemoryManager.init 1 8) 17).1 (by decide),
   (C3_amended_capacity (MemoryManager.init 1 8) 8).2.1
     ((C3_amended_capacity (MemoryManager.init 1 8) 8).2.2 (by decide) (by decide)),
   (C3_amended_capacity (MemoryManager.init 1 8) 8).2.2 (by decide) (by decide)⟩

/-! ## Claim C5: what gap reuse actually does -/

/-- C5.  In the reachable state `ex_gap1` the free list holds the gap
`[0,1)` (id 4) of length exactly 1, and `allocate 1` selects it; but,
contrary to the claim, the new occupied chunk is created with bounds
`[4,5)` — starting at the write cursor, because `__store_data` ignores
its `start` argument — instead of the gap's span `[0,1)`, and the gap
node, though erased from the free list, remains linked in the chain
right after the new chunk instead of being replaced by it. -/
theorem C5_gap_reuse_misplaced :
    Reachable ex_gap1
    ∧ ex_gap1.chain = [⟨0, 1, false, 0⟩, ⟨0, 1, true, 4⟩, ⟨3, 4, false, 3⟩]
    ∧ ex_gap1.first_fit 1 = some (1, ⟨0, 1, true, 4⟩)
    ∧ exC5out.2 = some ⟨4, 5, false, 5⟩
    ∧ exC5out.1.chain =
        [⟨0, 1, false, 0⟩, ⟨4, 5, false, 5⟩, ⟨0, 1, true, 4⟩, ⟨3, 4, false, 3⟩]
    ∧ exC5out.1.empty = [] :=
  ⟨reach_ex_gap1, by decide, by decide, by decide, by decide, by decide⟩

/-! ## Claim C6: case D gap bounds -/

/-- C6.  Removing the middle chunk `[1,2)` of three occupied chunks
(case D: both neighbours exist and are occupied) does link a brand-new
gap into the chain and the free list, but the gap's bounds are `(0,0)`,
not the removed span `[1,2)`: `create_empty_chunk` ignores the `start`
and `length` it is called with. -/
theorem C6_case_d_wrong_bounds :
    Reachable exC6state
    ∧ ex_three.chain[1]? = some ⟨1, 2, false, 1⟩
    ∧ exC6state.chain = [⟨0, 1, false, 0⟩, ⟨0, 0, true, 3⟩, ⟨2, 3, false, 2⟩]
    ∧ exC6state.empty = [3] :=
  ⟨reach_exC6state, by decide, by decide, by decide⟩

/-! ## Claim C8: defrag_quick -/

/-- C8.  In the reachable state `ex_gap1` the free list holds the gap
`[0,1)` (length 1) whose chain successor `[3,4)` is occupied.  The
claim says `defrag_quick` pops the gap, walks the following occupied
chunks shifting them back by the gap's length, lowers the write cursor
at the chain end, and returns `True`.  The code does none of this: its
walk condition is `current.is_gap()` (inverted — it would only traverse
gap chunks, and its body calls the nonexistent `get_data`), so the walk
visits nothing, and the call then raises `AttributeError` inside
`Vbo.upload_sub` (`data.nbytes` on the never-flattened `accum` list)
before reaching its bubble logic — modelled as `none`: no chunk is ever
shifted, the write cursor never decreases, and `True` is never
returned.  Only the returns-`False`-on-empty-free-list part of the
claim holds (last conjunct). -/
theorem C8_defrag_quick_raises :
    Reachable ex_gap1
    ∧ ex_gap1.chain[1]? = some ⟨0, 1, true, 4⟩
    ∧ ex_gap1.chain[2]? = some ⟨3, 4, false, 3⟩
    ∧ ex_gap1.index_last = 4
    ∧ ex_gap1.defrag_quick = none
    ∧ (MemoryManager.init 100 8).defrag_quick = some (MemoryManager.init 100 8, false) :=
  ⟨reach_ex_gap1, by decide, by decide, by decide, by decide, by decide⟩

/-! ## Claim C9: the Batch owner map -/

/-- C9.  `StaticBatch.add` never records the owner in `_entity_map`:
the chunk returned by `allocate` is discarded and the map is left
untouched (first conjunct, for every batch, owner and blob).  Hence on
a fresh batch, after `add` of entity 7 the map is still empty and a
subsequent `remove` of entity 7 finds no entry and changes nothing —
the allocated chunk is never freed — contradicting the claimed
owner-to-chunk round trip. -/
theorem C9_add_never_records :
    (∀ (b : StaticBatch) (e n : Nat), (StaticBatch.add b e n).entity_map = b.entity_map)
    ∧ (StaticBatch.add ⟨MemoryManager.init 100 8, []⟩ 7 5).entity_map = []
    ∧ StaticBatch.remove (StaticBatch.add ⟨MemoryManager.init 100 8, []⟩ 7 5) 7 =
        StaticBatch.add ⟨MemoryManager.init 100 8, []⟩ 7 5
    ∧ ((StaticBatch.add ⟨MemoryManager.init 100 8, []⟩ 7 5).manager.chain.length = 1) :=
  ⟨fun _ _ _ => rfl, by decide, by decide, by decide⟩

/-! ## Claim C10: the link setters -/

/-- C10.  On the node heap, `set_next(a, b)` with the default
continuation flag makes `a.get_next()` reference `b` and
`b.get_previous()` reference `a`; symmetrically for
`set_previous(b, a)`: one call to either setter restores both link
fields of the pair. -/
theorem C10_link_setters (h : Nat → Option ChunkNode) (a b : Nat)
    (ca cb : ChunkNode) (ha : h a = some ca) (hb : h b = some cb) :
    ((heap_set_next h a (some b) true) a).map ChunkNode.get_next = some (some b)
    ∧ ((heap_set_next h a (some b) true) b).map ChunkNode.get_previous = some (some a)
    ∧ ((heap_set_previous h b (some a) true) b).map ChunkNode.get_previous = some (some a)
    ∧ ((heap_set_previous h b (some a) true) a).map ChunkNode.get_next = some (some b) := by
  by_cases hab : b = a
  · subst hab
    have hcc : ca = cb := by rw [ha] at hb; exact Option.some_inj.mp hb
    subst hcc
    refine ⟨?_, ?_, ?_, ?_⟩ <;>
      simp [heap_set_next, heap_set_previous, set_previous_raw, set_next_raw,
        hset, ha, ChunkNode.get_next, ChunkNode.get_previous]
  · refine ⟨?_, ?_, ?_, ?_⟩ <;>
      simp [heap_set_next, heap_set_previous, set_previous_raw, set_next_raw,
        hset, ha, hb, hab, Ne.symm hab, ChunkNode.get_next, ChunkNode.get_previous]

/-- Concrete two-node heap for the C10 witness. -/
def exHeap : Nat → Option ChunkNode :=
  fun i =>
    if i = 0 then some ⟨0, 4, false, none, none, 0⟩
    else if i = 1 then some ⟨4, 7, false, none, none, 1⟩
    else none

/-- Witness for C10 at the concrete two-node heap. -/
theorem C10_link_setters_witness :
    ((heap_set_next exHeap 0 (some 1) true) 0).map ChunkNode.get_next = some (some 1)
    ∧ ((heap_set_next exHeap 0 (some 1) true) 1).map ChunkNode.get_previous = some (some 0)
    ∧ ((heap_set_previous exHeap 1 (some 0) true) 1).map ChunkNode.get_previous = some (some 0)
    ∧ ((heap_set_previous exHeap 1 (some 0) true) 0).map ChunkNode.get_next = some (some 1) :=
  C10_link_setters exHeap 0 1 ⟨0, 4, false, none, none, 0⟩ ⟨4, 7, false, none, none, 1⟩
    rfl rfl

/-! ## Claim C4: first-fit gap selection -/

/-- Soundness of the chain lookup: a found chunk sits at the returned
position and has the requested id. -/
theorem find_chunk_spec (l : List MemoryChunk) (cid : Nat) (j : Nat) (c : MemoryChunk)
    (h : find_chunk l cid = some (j, c)) : l[j]? = some c ∧ c.id = cid := by
  induction l generalizing j with
  | nil => exact absurd h (by simp [find_chunk])
  | cons hd tl ih =>
    by_cases hh : hd.id = cid
    · rw [find_chunk, if_pos hh] at h
      have hjc := Option.some_inj.mp h
      have hj : j = 0 := (congrArg Prod.fst hjc).symm
      have hcc : c = hd := (congrArg Prod.snd hjc).symm
      subst hj; subst hcc
      exact ⟨by simp, hh⟩
    · rw [find_chunk, if_neg hh] at h
      cases hf : find_chunk tl cid with
      | none => rw [hf] at h; exact absurd h (by simp)
      | some p =>
        rw [hf] at h
        obtain ⟨j', c'⟩ := p
        have hjc := Option.some_inj.mp h
        have hj : j = j' + 1 := (congrArg Prod.fst hjc).symm
        have hcc : c = c' := (congrArg Prod.snd hjc).symm
        subst hj; subst hcc
        have hih := ih j' hf
        exact ⟨by rw [List.getElem?_cons_succ]; exact hih.1, hih.2⟩

/-- C4.  `allocate` performs a first-fit scan of the free list in
insertion (list) order: if the free list splits as
`pre ++ gid :: post` where no id of `pre` fits a blob of length `n` and
the gap `g` with id `gid` (at chain position `j`) has
`get_length ≥ n`, then — capacity permitting — the scan selects exactly
`(j, g)`, and `allocate` reuses that gap rather than appending at the
write cursor: it returns a chunk, leaves the write cursor unchanged,
and grows the chain by one (the carve-in), regardless of any
better-fitting gap later in `post`. -/
theorem C4_first_fit_order (s : MemoryManager) (n : Nat) (pre post : List Nat)
    (gid : Nat) (j : Nat) (g : MemoryChunk)
    (hsplit : s.empty = pre ++ gid :: post)
    (hpre : ∀ cid ∈ pre, s.fit_test n cid = none)
    (hgid : find_chunk s.chain gid = some (j, g))
    (hfit : (n : Int) ≤ g.get_length)
    (hcap : s.is_full n = false) :
    s.first_fit n = some (j, g)
    ∧ (s.allocate n).2 = some (MemoryChunk.create_data_chunk s.index_last n s.count)
    ∧ (s.allocate n).1.index_last = s.index_last
    ∧ (s.allocate n).1.chain.length = s.chain.length + 1 := by
  have hjlt : j < s.chain.length := by
    have hg := (find_chunk_spec s.chain gid j g hgid).1
    by_contra hcon
    rw [List.getElem?_eq_none (Nat.le_of_not_lt hcon)] at hg
    exact Option.noConfusion hg
  have hft : s.fit_test n gid = some (j, g) := by
    simp only [MemoryManager.fit_test, hgid]
    exact if_pos hfit
  have hff : s.first_fit n = some (j, g) := by
    rw [MemoryManager.first_fit, hsplit, List.findSome?_append,
      List.findSome?_eq_none_iff.mpr hpre, Option.none_or, List.findSome?_cons, hft]
  refine ⟨hff, ?_⟩
  have hlen : ∀ M : List MemoryChunk, M.length = 2 →
      (s.chain.take j ++ M ++ s.chain.drop (j + 1)).length = s.chain.length + 1 := by
    intro M hM
    rw [List.length_append, List.length_append, hM, List.length_take, List.length_drop]
    omega
  by_cases hg : g.get_length = (n : Int)
  · simp only [MemoryManager.allocate, hcap, Bool.false_eq_true, if_false, hff, if_pos hg]
    exact ⟨trivial, trivial, hlen _ rfl⟩
  · simp only [MemoryManager.allocate, hcap, Bool.false_eq_true, if_false, hff, if_neg hg]
    exact ⟨trivial, trivial, hlen _ rfl⟩

/-- A handcrafted manager state for the C4 witness: free list
`[0, 2, 4]`; gap 0 has length 1 (does not fit a blob of length 2),
gap 2 has length 3 (first fit), gap 4 has length 2 (an exact fit that
first-fit must ignore). -/
def exC4state : MemoryManager :=
  { max_size := 100, stride := 8,
    chain := [⟨0, 1, true, 0⟩, ⟨1, 2, false, 1⟩, ⟨2, 5, true, 2⟩,
              ⟨5, 9, false, 3⟩, ⟨9, 11, true, 4⟩, ⟨11, 13, false, 5⟩],
    empty := [0, 2, 4], index_last := 13, count := 6 }

/-- Witness for C4 on `exC4state` with a blob of length 2: the scan
returns gap 2 (chain position 2), skipping the unfitting gap 0 and
ignoring the later exact-fit gap 4. -/
theorem C4_first_fit_order_witness :
    exC4state.first_fit 2 = some (2, ⟨2, 5, true, 2⟩)
    ∧ (exC4state.allocate 2).2 =
        some (MemoryChunk.create_data_chunk exC4state.index_last 2 exC4state.count)
    ∧ (exC4state.allocate 2).1.index_last = exC4state.index_last
    ∧ (exC4state.allocate 2).1.chain.length = exC4state.chain.length + 1 :=
  C4_first_fit_order exC4state 2 [0] [4] 2 2 ⟨2, 5, true, 2⟩ (by decide)
    (by decide) (by decide) (by decide) (by decide)

/-! ## Claim C7: removal of the chain tail -/

/-- C7.  Removing the tail chunk `c` (chain position `i`, no `next`):
if the previous chunk `p` is a gap, both `c` and `p` leave the chain,
`p` leaves the free list, the write cursor drops by both lengths, and
the chunk before the gap (position `i - 2`, when it exists) becomes the
new tail; if `p` is occupied, only `c` leaves, `p` becomes the new
tail, the cursor drops by exactly `c`'s length and the free list is
untouched. -/
theorem C7_remove_tail (s : MemoryManager) (i : Nat) (c : MemoryChunk)
    (hc : s.chain[i]? = some c) (_hocc : c.is_gap = false)
    (htail : s.chain.length = i + 1) :
    (∀ p, 0 < i → s.chain[i - 1]? = some p → p.is_gap = true →
      (s.remove i).chain = s.chain.take (i - 1)
      ∧ (s.remove i).empty = s.empty.erase p.id
      ∧ (s.remove i).index_last = s.index_last - (c.get_length + p.get_length)
      ∧ (2 ≤ i → (s.remove i).chain.getLast? = s.chain[i - 2]?))
    ∧ (∀ p, 0 < i → s.chain[i - 1]? = some p → p.is_gap = false →
      (s.remove i).chain = s.chain.take i
      ∧ (s.remove i).chain.getLast? = some p
      ∧ (s.remove i).index_last = s.index_last - c.get_length
      ∧ (s.remove i).empty = s.empty) := by
  have hnext : s.chain[i + 1]? = none := List.getElem?_eq_none (by omega)
  constructor
  · intro p hi hp hgap
    have hrw : s.remove i = s.remove_last i c (some p) := by
      rw [MemoryManager.remove, hc, hnext, if_neg (Nat.pos_iff_ne_zero.mp hi), hp]
    have hbr : s.remove_last i c (some p) =
        { s with chain := s.chain.take (i - 1),
                 empty := s.empty.erase p.id,
                 index_last := s.index_last - (c.get_length + p.get_length) } := by
      simp [MemoryManager.remove_last, hgap]
    rw [hrw, hbr]
    refine ⟨rfl, rfl, rfl, ?_⟩
    intro h2i
    have h12 : i - 1 - 1 = i - 2 := by omega
    exact (getLast?_take_eq s.chain (i - 1) (by omega) (by omega)).trans (by rw [h12])
  · intro p hi hp hocc2
    have hrw : s.remove i = s.remove_last i c (some p) := by
      rw [MemoryManager.remove, hc, hnext, if_neg (Nat.pos_iff_ne_zero.mp hi), hp]
    have hbr : s.remove_last i c (some p) =
        { s with chain := s.chain.take i,
                 index_last := s.index_last - c.get_length } := by
      simp [MemoryManager.remove_last, hocc2]
    rw [hrw, hbr]
    refine ⟨rfl, ?_, rfl, rfl⟩
    rw [getLast?_take_eq s.chain i hi (by omega), hp]

/-- Witness for C7 on `exC6state` (chain
`[0,1) occupied, (0,0) gap, [2,3) occupied`, free list `[3]`), removing
the tail at position 2 whose previous chunk is the gap: the gap-merging
branch of the tail case. -/
theorem C7_remove_tail_witness :
    (exC6state.remove 2).chain = exC6state.chain.take 1
    ∧ (exC6state.remove 2).empty = exC6state.empty.erase 3
    ∧ (exC6state.remove 2).index_last = exC6state.index_last -
        ((⟨2, 3, false, 2⟩ : MemoryChunk).get_length +
         (⟨0, 0, true, 3⟩ : MemoryChunk).get_length)
    ∧ (2 ≤ 2 → (exC6state.remove 2).chain.getLast? = exC6state.chain[0]?) :=
  (C7_remove_tail exC6state 2 ⟨2, 3, false, 2⟩ (by decide) (by decide) (by decide)).1
    ⟨0, 0, true, 3⟩ (by decide) (by decide) (by decide)

/-! ## Claim C1: machinery for the no-adjacent-gaps invariant -/

/-- A position holding a value is inside the list. -/
theorem lt_length_of_getElem? {α : Type _} {l : List α} {i : Nat} {x : α}
    (h : l[i]? = some x) : i < l.length := by
  by_contra hcon
  rw [List.getElem?_eq_none (Nat.le_of_not_lt hcon)] at h
  exact Option.noConfusion h

/-- Glueing a take-front to a later drop-tail is a sublist. -/
theorem sublist_take_drop {α : Type _} (l : List α) {a b : Nat} (hab : a ≤ b) :
    (l.take a ++ l.drop b).Sublist l := by
  have h1 : List.drop b l = List.drop (b - a) (List.drop a l) := by
    rw [List.drop_drop]; congr 1; omega
  have h2 := List.Sublist.append_left
    (List.drop_sublist (b - a) (List.drop a l)) (List.take a l)
  rw [List.take_append_drop] at h2
  rw [h1]
  exact h2

/-- A take-front, a kept middle element, and a drop-tail past it form a
sublist. -/
theorem sublist_take_cons_drop {α : Type _} {l : List α} {a r b : Nat} {x : α}
    (har : a ≤ r) (hrb : r < b) (hr : l[r]? = some x) :
    (l.take a ++ x :: l.drop b).Sublist l := by
  have hrlen : r < l.length := lt_length_of_getElem? hr
  have hx : l[r] = x := by
    rw [List.getElem?_eq_getElem hrlen] at hr; exact Option.some_inj.mp hr
  have h1 : List.drop b l = List.drop (b - (r + 1)) (List.drop (r + 1) l) := by
    rw [List.drop_drop]; congr 1; omega
  have h2 : (x :: List.drop b l).Sublist (List.drop r l) := by
    rw [h1, ← List.getElem_cons_drop l r hrlen, hx]
    exact List.Sublist.cons₂ x (List.drop_sublist _ _)
  have h3 : List.drop r l = List.drop (r - a) (List.drop a l) := by
    rw [List.drop_drop]; congr 1; omega
  have h4 : (x :: List.drop b l).Sublist (List.drop a l) := by
    rw [h3] at h2
    exact h2.trans (List.drop_sublist _ _)
  have h5 := List.Sublist.append_left h4 (List.take a l)
  rw [List.take_append_drop] at h5
  exact h5

/-- Splitting a list at an occupied position. -/
theorem eq_take_cons_drop {α : Type _} {l : List α} {j : Nat} {g : α}
    (hj : l[j]? = some g) : l.take j ++ g :: l.drop (j + 1) = l := by
  have hjl : j < l.length := lt_length_of_getElem? hj
  have hg : l[j] = g := by
    rw [List.getElem?_eq_getElem hjl] at hj; exact Option.some_inj.mp hj
  rw [← hg, List.getElem_cons_drop, List.take_append_drop]

/-- Appending a nonempty drop-tail keeps the original last element. -/
theorem getLast?_append_drop {α : Type _} {l : List α} (X : List α) {b : Nat}
    (hb : b < l.length) : (X ++ l.drop b).getLast? = l.getLast? := by
  rw [List.getLast?_append, getLast?_drop_eq l b hb]
  cases hx : l.getLast? with
  | none =>
    have h0 := List.getLast?_eq_none_iff.mp hx
    rw [h0] at hb
    simp at hb
  | some v => rfl

/-- Nodup of the chain ids survives a surgery whose middle keeps the id
of the replaced chunk. -/
theorem nodup_id_keep {l : List MemoryChunk} {a r b : Nat} {x x' : MemoryChunk}
    (h : (l.map MemoryChunk.id).Nodup) (hr : l[r]? = some x) (hid : x'.id = x.id)
    (har : a ≤ r) (hrb : r < b) :
    ((l.take a ++ [x'] ++ l.drop b).map MemoryChunk.id).Nodup := by
  have hsub := (sublist_take_cons_drop har hrb hr).map MemoryChunk.id
  have heq : (l.take a ++ [x'] ++ l.drop b).map MemoryChunk.id
      = (l.take a ++ x :: l.drop b).map MemoryChunk.id := by
    simp [hid]
  rw [heq]
  exact hsub.nodup h

/-- Nodup of the chain ids survives a surgery whose middle is a single
chunk with a fresh id. -/
theorem nodup_id_fresh {l : List MemoryChunk} {a b : Nat} {x : MemoryChunk} {K : Nat}
    (h : (l.map MemoryChunk.id).Nodup) (hab : a ≤ b)
    (hbound : ∀ c ∈ l, c.id < K) (hx : x.id = K) :
    ((l.take a ++ [x] ++ l.drop b).map MemoryChunk.id).Nodup := by
  have heq : (l.take a ++ [x] ++ l.drop b).map MemoryChunk.id
      = (l.take a).map MemoryChunk.id ++ x.id :: (l.drop b).map MemoryChunk.id := by
    simp
  rw [heq]
  apply List.nodup_middle.mpr
  rw [List.nodup_cons]
  constructor
  · rw [← List.map_append]
    intro hmem
    obtain ⟨c, hcmem, hcid⟩ := List.mem_map.mp hmem
    have hcl : c ∈ l := (sublist_take_drop l hab).subset hcmem
    have := hbound c hcl
    omega
  · rw [← List.map_append]
    exact ((sublist_take_drop l hab).map MemoryChunk.id).nodup h

/-- Nodup of the chain ids survives the gap-reuse surgery: a fresh
chunk plus the (possibly shrunk) gap replace the gap position. -/
theorem nodup_id_reuse {l : List MemoryChunk} {j : Nat} {g new g' : MemoryChunk} {K : Nat}
    (h : (l.map MemoryChunk.id).Nodup) (hj : l[j]? = some g)
    (hg' : g'.id = g.id) (hnew : new.id = K) (hbound : ∀ c ∈ l, c.id < K) :
    ((l.take j ++ [new, g'] ++ l.drop (j + 1)).map MemoryChunk.id).Nodup := by
  have heq : (l.take j ++ [new, g'] ++ l.drop (j + 1)).map MemoryChunk.id
      = (l.take j).map MemoryChunk.id
        ++ new.id :: (g :: l.drop (j + 1)).map MemoryChunk.id := by
    simp [hg']
  rw [heq]
  apply List.nodup_middle.mpr
  rw [List.nodup_cons]
  constructor
  · rw [← List.map_append, eq_take_cons_drop hj]
    intro hmem
    obtain ⟨c, hcmem, hcid⟩ := List.mem_map.mp hmem
    have := hbound c hcmem
    omega
  · rw [← List.map_append, eq_take_cons_drop hj]
    exact h

/-- In a chain without adjacent gaps, the successor of a gap is
occupied. -/
theorem not_gap_right {l : List MemoryChunk} {i : Nat} {a b : MemoryChunk}
    (h : NoAdjGaps l) (ha : l[i]? = some a) (hb : l[i + 1]? = some b)
    (hga : a.is_gap = true) : b.is_gap = false := by
  have hR := chain'_adjacent h ha hb
  cases hbg : b.is_gap
  · rfl
  · exact absurd ⟨hga, hbg⟩ hR

/-- In a chain without adjacent gaps, the predecessor of a gap is
occupied. -/
theorem not_gap_left {l : List MemoryChunk} {i : Nat} {a b : MemoryChunk}
    (h : NoAdjGaps l) (ha : l[i]? = some a) (hb : l[i + 1]? = some b)
    (hgb : b.is_gap = true) : a.is_gap = false := by
  have hR := chain'_adjacent h ha hb
  cases hag : a.is_gap
  · rfl
  · exact absurd ⟨hag, hgb⟩ hR

/-- A free-list member found in the chain is a gap (uses the invariant
bundle). -/
theorem gap_of_free {s : MemoryManager} (h : AllocInv s) {cid : Nat} {j : Nat}
    {g : MemoryChunk} (hmem : cid ∈ s.empty)
    (hfc : find_chunk s.chain cid = some (j, g)) :
    g.is_gap = true ∧ s.chain[j]? = some g := by
  have hspec := find_chunk_spec _ _ _ _ hfc
  obtain ⟨c, hcmem, hcid, hcgap⟩ := h.mem_empty cid hmem
  have hgmem : g ∈ s.chain := List.mem_iff_getElem?.mpr ⟨j, hspec.1⟩
  have hcg : c = g :=
    List.inj_on_of_nodup_map h.nodup_chain hcmem hgmem (by rw [hcid, hspec.2])
  exact ⟨by rw [← hcg]; exact hcgap, hspec.1⟩

/-- Membership in a surgery result coming from before the cut. -/
theorem mem_result_left {l M : List MemoryChunk} {a b k : Nat} {c : MemoryChunk}
    (hk : l[k]? = some c) (hka : k < a) :
    c ∈ l.take a ++ M ++ l.drop b :=
  List.mem_append.mpr (Or.inl (List.mem_append.mpr (Or.inl (mem_take_of_getElem? hk hka))))

/-- Membership in a surgery result coming from past the cut. -/
theorem mem_result_right {l M : List MemoryChunk} {a b k : Nat} {c : MemoryChunk}
    (hk : l[k]? = some c) (hkb : b ≤ k) :
    c ∈ l.take a ++ M ++ l.drop b :=
  List.mem_append.mpr (Or.inr (mem_drop_of_getElem? hk hkb))

/-- Membership in a surgery result coming from the middle. -/
theorem mem_result_mid {l M : List MemoryChunk} {a b : Nat} {c : MemoryChunk}
    (hc : c ∈ M) : c ∈ l.take a ++ M ++ l.drop b :=
  List.mem_append.mpr (Or.inl (List.mem_append.mpr (Or.inr hc)))

/-- Id bound for a surgery result. -/
theorem id_bound_result {l M : List MemoryChunk} {a b K K' : Nat}
    (hb : ∀ c ∈ l, c.id < K) (hM : ∀ c ∈ M, c.id < K') (hK : K ≤ K') :
    ∀ c ∈ l.take a ++ M ++ l.drop b, c.id < K' := by
  intro c hc
  rcases List.mem_append.mp hc with h1 | h2
  · rcases List.mem_append.mp h1 with h3 | h4
    · exact lt_of_lt_of_le (hb c ((List.take_sublist _ _).subset h3)) hK
    · exact hM c h4
  · exact lt_of_lt_of_le (hb c ((List.drop_sublist _ _).subset h2)) hK

/-- Analysis of a successful first-fit scan: the winner is a chain
member found via its free-list id, and it fits. -/
theorem first_fit_inv {s : MemoryManager} {n : Nat} {j : Nat} {g : MemoryChunk}
    (hff : s.first_fit n = some (j, g)) :
    ∃ cid ∈ s.empty, find_chunk s.chain cid = some (j, g) ∧ (n : Int) ≤ g.get_length := by
  obtain ⟨cid, hcid, hft⟩ := List.exists_of_findSome?_eq_some hff
  refine ⟨cid, hcid, ?_⟩
  cases hfc : find_chunk s.chain cid with
  | none =>
    simp only [MemoryManager.fit_test, hfc] at hft
    exact Option.noConfusion hft
  | some p =>
    obtain ⟨j', g'⟩ := p
    simp only [MemoryManager.fit_test, hfc] at hft
    by_cases hle : (n : Int) ≤ g'.get_length
    · rw [if_pos hle] at hft
      have hjc := Option.some_inj.mp hft
      have hj : j' = j := congrArg Prod.fst hjc
      have hg : g' = g := congrArg Prod.snd hjc
      subst hj; subst hg
      exact ⟨rfl, hle⟩
    · rw [if_neg hle] at hft
      exact Option.noConfusion hft

/-- Preservation of the allocator invariant by `allocate`. -/
theorem allocInv_allocate (s : MemoryManager) (n : Nat) (h : AllocInv s) :
    AllocInv (s.allocate n).1 := by
  cases hfb : s.is_full n with
  | true =>
    have hstate : (s.allocate n).1 = s := by
      simp [MemoryManager.allocate, hfb]
    rw [hstate]; exact h
  | false =>
    cases hff : s.first_fit n with
    | none =>
      have hstate : (s.allocate n).1 =
          { s with chain := s.chain ++ [MemoryChunk.create_data_chunk s.index_last n s.count],
                   index_last := s.index_last + (n : Int),
                   count := s.count + 1 } := by
        simp [MemoryManager.allocate, hfb, hff]
      rw [hstate]
      refine ⟨?_, ?_, ?_, ?_, h.nodup_empty, ?_⟩
      · refine List.chain'_append.mpr ⟨h.no_adj, List.chain'_singleton _, ?_⟩
        intro x hx y hy
        simp only [List.head?_cons, Option.mem_def, Option.some_inj] at hy
        subst hy
        intro hxy
        exact absurd hxy.2 (by simp [MemoryChunk.create_data_chunk])
      · intro c hlast
        rw [List.getLast?_append] at hlast
        have hnc : MemoryChunk.create_data_chunk s.index_last n s.count = c :=
          Option.some_inj.mp hlast
        rw [← hnc]
        rfl
      · intro cid hm
        obtain ⟨c, hcmem, hcid, hcgap⟩ := h.mem_empty cid hm
        exact ⟨c, List.mem_append_left _ hcmem, hcid, hcgap⟩
      · simp only [List.map_append, List.map_cons, List.map_nil]
        refine List.nodup_append.mpr ⟨h.nodup_chain, List.nodup_singleton _, ?_⟩
        intro a ha hb
        simp only [MemoryChunk.create_data_chunk, List.mem_singleton] at hb
        subst hb
        obtain ⟨c, hcmem, hcid⟩ := List.mem_map.mp ha
        have := h.id_bound c hcmem
        omega
      · intro c hc
        rcases List.mem_append.mp hc with h1 | h2
        · exact Nat.lt_succ_of_lt (h.id_bound c h1)
        · simp only [List.mem_singleton] at h2
          subst h2
          exact Nat.lt_succ_self _
    | some p =>
      obtain ⟨j, g⟩ := p
      obtain ⟨cid, hcidmem, hfc, hfit⟩ := first_fit_inv hff
      obtain ⟨hggap, hjg⟩ := gap_of_free h hcidmem hfc
      have hgid : g.id = cid := (find_chunk_spec _ _ _ _ hfc).2
      have hjlen : j < s.chain.length := lt_length_of_getElem? hjg
      have hj1 : j + 1 < s.chain.length := by
        rcases Nat.lt_or_ge (j + 1) s.chain.length with h' | h'
        · exact h'
        · exfalso
          have hje : s.chain.length - 1 = j := by omega
          have hlast : s.chain.getLast? = some g := by
            rw [List.getLast?_eq_getElem?, hje]; exact hjg
          have hocc := h.tail_occ g hlast
          rw [hggap] at hocc
          exact Bool.noConfusion hocc
      have hMocc : (MemoryChunk.create_data_chunk s.index_last n s.count).is_gap = false := rfl
      by_cases hgl : g.get_length = (n : Int)
      · have hstate : (s.allocate n).1 =
            { s with chain := s.chain.take j
                       ++ [MemoryChunk.create_data_chunk s.index_last n s.count, g]
                       ++ s.chain.drop (j + 1),
                     empty := s.empty.erase g.id,
                     count := s.count + 1 } := by
          simp [MemoryManager.allocate, hfb, hff, hgl]
        rw [hstate]
        refine ⟨?_, ?_, ?_, ?_, h.nodup_empty.erase _, ?_⟩
        · refine chain'_surgery h.no_adj ?_ ?_ ?_ ?_
          · refine List.chain'_cons.mpr ⟨?_, List.chain'_singleton _⟩
            intro hxy
            exact absurd hxy.1 (by simp [MemoryChunk.create_data_chunk])
          · intro x y hx hy
            simp only [List.head?_cons, Option.some_inj] at hy
            subst hy
            intro hxy
            exact absurd hxy.2 (by simp [MemoryChunk.create_data_chunk])
          · intro x y hx hy
            have hxg : g = x := by simpa using hx
            subst hxg
            have hyocc := not_gap_right h.no_adj hjg hy hggap
            intro hxy
            rw [hyocc] at hxy
            exact Bool.noConfusion hxy.2
          · intro x y hM
            exact absurd hM (by simp)
        · intro c hlast
          rw [getLast?_append_drop _ hj1] at hlast
          exact h.tail_occ c hlast
        · intro cid' hm'
          obtain ⟨hne, hmem'⟩ := (h.nodup_empty.mem_erase_iff).mp hm'
          obtain ⟨c, hcmem, hcid', hcgap⟩ := h.mem_empty cid' hmem'
          obtain ⟨k, hk⟩ := List.mem_iff_getElem?.mp hcmem
          have hkj : k ≠ j := by
            intro he
            subst he
            rw [hk] at hjg
            have hcg : c = g := Option.some_inj.mp hjg
            apply hne
            rw [← hcid', hcg]
          rcases Nat.lt_or_ge k j with hlt | hge
          · exact ⟨c, mem_result_left hk hlt, hcid', hcgap⟩
          · have : j + 1 ≤ k := by omega
            exact ⟨c, mem_result_right hk this, hcid', hcgap⟩
        · exact nodup_id_reuse h.nodup_chain hjg rfl rfl h.id_bound
        · refine id_bound_result h.id_bound ?_ (Nat.le_succ _)
          intro c hc
          simp only [List.mem_cons, List.mem_singleton, List.not_mem_nil, or_false] at hc
          rcases hc with hc | hc
          · rw [hc]; exact Nat.lt_succ_self _
          · rw [hc]
            exact Nat.lt_succ_of_lt (h.id_bound g (List.mem_iff_getElem?.mpr ⟨j, hjg⟩))
      · have hstate : (s.allocate n).1 =
            { s with chain := s.chain.take j
                       ++ [MemoryChunk.create_data_chunk s.index_last n s.count,
                           { g with index_first := g.index_first + (n : Int) }]
                       ++ s.chain.drop (j + 1),
                     count := s.count + 1 } := by
          simp [MemoryManager.allocate, hfb, hff, hgl]
        rw [hstate]
        refine ⟨?_, ?_, ?_, ?_, h.nodup_empty, ?_⟩
        · refine chain'_surgery h.no_adj ?_ ?_ ?_ ?_
          · refine List.chain'_cons.mpr ⟨?_, List.chain'_singleton _⟩
            intro hxy
            exact absurd hxy.1 (by simp [MemoryChunk.create_data_chunk])
          · intro x y hx hy
            simp only [List.head?_cons, Option.some_inj] at hy
            subst hy
            intro hxy
            exact absurd hxy.2 (by simp [MemoryChunk.create_data_chunk])
          · intro x y hx hy
            have hxg : { g with index_first := g.index_first + (n : Int) } = x := by
              simpa using hx
            subst hxg
            have hyocc := not_gap_right h.no_adj hjg hy hggap
            intro hxy
            rw [hyocc] at hxy
            exact Bool.noConfusion hxy.2
          · intro x y hM
            exact absurd hM (by simp)
        · intro c hlast
          rw [getLast?_append_drop _ hj1] at hlast
          exact h.tail_occ c hlast
        · intro cid' hm'
          obtain ⟨c, hcmem, hcid', hcgap⟩ := h.mem_empty cid' hm'
          obtain ⟨k, hk⟩ := List.mem_iff_getElem?.mp hcmem
          by_cases hkj : k = j
          · subst hkj
            rw [hk] at hjg
            have hcg : c = g := Option.some_inj.mp hjg
            refine ⟨{ g with index_first := g.index_first + (n : Int) },
              mem_result_mid (by simp), ?_, ?_⟩
            · show g.id = cid'
              rw [← hcid', hcg]
            · show g.is_gap = true
              exact hggap
          · rcases Nat.lt_or_ge k j with hlt | hge
            · exact ⟨c, mem_result_left hk hlt, hcid', hcgap⟩
            · have : j + 1 ≤ k := by omega
              exact ⟨c, mem_result_right hk this, hcid', hcgap⟩
        · exact nodup_id_reuse h.nodup_chain hjg rfl rfl h.id_bound
        · refine id_bound_result h.id_bound ?_ (Nat.le_succ _)
          intro c hc
          simp only [List.mem_cons, List.mem_singleton, List.not_mem_nil, or_false] at hc
          rcases hc with hc | hc
          · rw [hc]; exact Nat.lt_succ_self _
          · rw [hc]
            exact Nat.lt_succ_of_lt (h.id_bound g (List.mem_iff_getElem?.mpr ⟨j, hjg⟩))

/-- A gap position and an occupied position differ. -/
theorem gap_pos_ne {l : List MemoryChunk} {i k : Nat} {c c' : MemoryChunk}
    (hc : l[i]? = some c) (hocc : c.is_gap = false)
    (hk : l[k]? = some c') (hcgap : c'.is_gap = true) : k ≠ i := by
  intro he
  subst he
  rw [hk] at hc
  have hcc : c' = c := Option.some_inj.mp hc
  rw [hcc, hocc] at hcgap
  exact Bool.noConfusion hcgap

/-- A gap is never the chain tail (invariant states). -/
theorem gap_not_tail {s : MemoryManager} (h : AllocInv s) {k : Nat} {g : MemoryChunk}
    (hk : s.chain[k]? = some g) (hg : g.is_gap = true) : k + 1 < s.chain.length := by
  have hklen := lt_length_of_getElem? hk
  rcases Nat.lt_or_ge (k + 1) s.chain.length with h' | h'
  · exact h'
  · exfalso
    have he : s.chain.length - 1 = k := by omega
    have hlast : s.chain.getLast? = some g := by
      rw [List.getLast?_eq_getElem?, he]; exact hk
    have hocc2 := h.tail_occ g hlast
    rw [hg] at hocc2
    exact Bool.noConfusion hocc2

/-- Reading a seam fact on a take-front back as a position fact. -/
theorem getLast?_take_cases {α : Type _} {l : List α} {a : Nat} {x : α}
    (hx : (l.take a).getLast? = some x) (ha : a ≤ l.length) :
    0 < a ∧ l[a - 1]? = some x := by
  have hpos : 0 < a := by
    by_contra h0
    have ha0 : a = 0 := by omega
    rw [ha0, List.take_zero] at hx
    exact Option.noConfusion hx
  exact ⟨hpos, by rw [← getLast?_take_eq l a hpos ha]; exact hx⟩

/-- Invariant preservation for the gap-absorption branch of
`__remove_near_gap` (previous chunk missing or occupied): the following
gap swallows the removed chunk by moving its front back. -/
theorem allocInv_shrink (s : MemoryManager) (i : Nat) (c nx : MemoryChunk)
    (h : AllocInv s) (hc : s.chain[i]? = some c) (hocc : c.is_gap = false)
    (hnx : s.chain[i + 1]? = some nx) (hgx : nx.is_gap = true)
    (hprev : ∀ q, 0 < i → s.chain[i - 1]? = some q → q.is_gap = false) :
    AllocInv { s with chain := s.chain.take i
        ++ [{ nx with index_first := nx.index_first - c.get_length }]
        ++ s.chain.drop (i + 2) } := by
  have hi2 : i + 2 < s.chain.length := gap_not_tail h hnx hgx
  refine ⟨?_, ?_, ?_, ?_, h.nodup_empty, ?_⟩
  · refine chain'_surgery h.no_adj (List.chain'_singleton _) ?_ ?_ ?_
    · intro x y hx hy
      obtain ⟨hpos, hxp⟩ := getLast?_take_cases hx (by omega)
      simp only [List.head?_cons, Option.some_inj] at hy
      subst hy
      have hxocc := hprev x hpos hxp
      intro hxy
      rw [hxocc] at hxy
      exact Bool.noConfusion hxy.1
    · intro x y hx hy
      have hyocc := not_gap_right h.no_adj hnx hy hgx
      intro hxy
      rw [hyocc] at hxy
      exact Bool.noConfusion hxy.2
    · intro x y hM
      exact absurd hM (by simp)
  · intro c' hlast
    rw [getLast?_append_drop _ hi2] at hlast
    exact h.tail_occ c' hlast
  · intro cid hm
    obtain ⟨c', hcmem, hcid, hcgap⟩ := h.mem_empty cid hm
    obtain ⟨k, hk⟩ := List.mem_iff_getElem?.mp hcmem
    have hki : k ≠ i := gap_pos_ne hc hocc hk hcgap
    by_cases hki1 : k = i + 1
    · subst hki1
      rw [hk] at hnx
      have hcnx : c' = nx := Option.some_inj.mp hnx
      refine ⟨{ nx with index_first := nx.index_first - c.get_length },
        mem_result_mid (by simp), ?_, hgx⟩
      show nx.id = cid
      rw [← hcid, hcnx]
    · rcases Nat.lt_or_ge k i with hlt | hge
      · exact ⟨c', mem_result_left hk hlt, hcid, hcgap⟩
      · have hik : i + 2 ≤ k := by omega
        exact ⟨c', mem_result_right hk hik, hcid, hcgap⟩
  · exact nodup_id_keep h.nodup_chain hnx rfl (by omega) (by omega)
  · refine id_bound_result h.id_bound ?_ (le_refl _)
    intro c' hc'
    simp only [List.mem_singleton] at hc'
    rw [hc']
    exact h.id_bound nx (List.mem_iff_getElem?.mpr ⟨i + 1, hnx⟩)

/-- Invariant preservation for the three-way merge branch of
`__remove_near_gap` (both neighbours are gaps): the previous gap
swallows the removed chunk and the following gap. -/
theorem allocInv_merge3 (s : MemoryManager) (i : Nat) (c nx p : MemoryChunk)
    (h : AllocInv s) (hc : s.chain[i]? = some c) (hocc : c.is_gap = false)
    (hnx : s.chain[i + 1]? = some nx) (hgx : nx.is_gap = true)
    (hi : 0 < i) (hp : s.chain[i - 1]? = some p) (hpg : p.is_gap = true) :
    AllocInv { s with
        chain := s.chain.take (i - 1)
          ++ [{ p with index_last := p.index_last + (c.get_length + nx.get_length) }]
          ++ s.chain.drop (i + 2),
        empty := s.empty.erase nx.id } := by
  have hi2 : i + 2 < s.chain.length := gap_not_tail h hnx hgx
  refine ⟨?_, ?_, ?_, ?_, h.nodup_empty.erase _, ?_⟩
  · refine chain'_surgery h.no_adj (List.chain'_singleton _) ?_ ?_ ?_
    · intro x y hx hy
      obtain ⟨hpos, hxp⟩ := getLast?_take_cases hx (by omega)
      have h12 : i - 1 - 1 = i - 2 := by omega
      rw [h12] at hxp
      have he : i - 2 + 1 = i - 1 := by omega
      have hxocc := not_gap_left h.no_adj hxp (by rw [he]; exact hp) hpg
      intro hxy
      rw [hxocc] at hxy
      exact Bool.noConfusion hxy.1
    · intro x y hx hy
      have hyocc := not_gap_right h.no_adj hnx hy hgx
      intro hxy
      rw [hyocc] at hxy
      exact Bool.noConfusion hxy.2
    · intro x y hM
      exact absurd hM (by simp)
  · intro c' hlast
    rw [getLast?_append_drop _ hi2] at hlast
    exact h.tail_occ c' hlast
  · intro cid hm
    obtain ⟨hne, hmem⟩ := (h.nodup_empty.mem_erase_iff).mp hm
    obtain ⟨c', hcmem, hcid, hcgap⟩ := h.mem_empty cid hmem
    obtain ⟨k, hk⟩ := List.mem_iff_getElem?.mp hcmem
    have hki : k ≠ i := gap_pos_ne hc hocc hk hcgap
    have hki1 : k ≠ i + 1 := by
      intro he
      subst he
      rw [hk] at hnx
      have hcnx : c' = nx := Option.some_inj.mp hnx
      apply hne
      rw [← hcid, hcnx]
    by_cases hkp : k = i - 1
    · subst hkp
      rw [hk] at hp
      have hcp : c' = p := Option.some_inj.mp hp
      refine ⟨{ p with index_last := p.index_last + (c.get_length + nx.get_length) },
        mem_result_mid (by simp), ?_, hpg⟩
      show p.id = cid
      rw [← hcid, hcp]
    · rcases Nat.lt_or_ge k (i - 1) with hlt | hge
      · exact ⟨c', mem_result_left hk hlt, hcid, hcgap⟩
      · have hik : i + 2 ≤ k := by omega
        exact ⟨c', mem_result_right hk hik, hcid, hcgap⟩
  · exact nodup_id_keep h.nodup_chain hp rfl (by omega) (by omega)
  · refine id_bound_result h.id_bound ?_ (le_refl _)
    intro c' hc'
    simp only [List.mem_singleton] at hc'
    rw [hc']
    exact h.id_bound p (List.mem_iff_getElem?.mpr ⟨i - 1, hp⟩)

/-- Invariant preservation for the gap-expansion branch of
`__remove_near_data` (previous chunk is a gap): the previous gap
swallows the removed chunk by extending its back. -/
theorem allocInv_expand (s : MemoryManager) (i : Nat) (c nx p : MemoryChunk)
    (h : AllocInv s) (hc : s.chain[i]? = some c) (hocc : c.is_gap = false)
    (hnx : s.chain[i + 1]? = some nx) (hgx : nx.is_gap = false)
    (hi : 0 < i) (hp : s.chain[i - 1]? = some p) (hpg : p.is_gap = true) :
    AllocInv { s with chain := s.chain.take (i - 1)
        ++ [{ p with index_last := p.index_last + c.get_length }]
        ++ s.chain.drop (i + 1) } := by
  have hi1 : i + 1 < s.chain.length := lt_length_of_getElem? hnx
  refine ⟨?_, ?_, ?_, ?_, h.nodup_empty, ?_⟩
  · refine chain'_surgery h.no_adj (List.chain'_singleton _) ?_ ?_ ?_
    · intro x y hx hy
      obtain ⟨hpos, hxp⟩ := getLast?_take_cases hx (by omega)
      have h12 : i - 1 - 1 = i - 2 := by omega
      rw [h12] at hxp
      have he : i - 2 + 1 = i - 1 := by omega
      have hxocc := not_gap_left h.no_adj hxp (by rw [he]; exact hp) hpg
      intro hxy
      rw [hxocc] at hxy
      exact Bool.noConfusion hxy.1
    · intro x y hx hy
      have hynx : nx = y := by rw [hnx] at hy; exact Option.some_inj.mp hy
      intro hxy
      rw [← hynx, hgx] at hxy
      exact Bool.noConfusion hxy.2
    · intro x y hM
      exact absurd hM (by simp)
  · intro c' hlast
    rw [getLast?_append_drop _ hi1] at hlast
    exact h.tail_occ c' hlast
  · intro cid hm
    obtain ⟨c', hcmem, hcid, hcgap⟩ := h.mem_empty cid hm
    obtain ⟨k, hk⟩ := List.mem_iff_getElem?.mp hcmem
    have hki : k ≠ i := gap_pos_ne hc hocc hk hcgap
    by_cases hkp : k = i - 1
    · subst hkp
      rw [hk] at hp
      have hcp : c' = p := Option.some_inj.mp hp
      refine ⟨{ p with index_last := p.index_last + c.get_length },
        mem_result_mid (by simp), ?_, hpg⟩
      show p.id = cid
      rw [← hcid, hcp]
    · rcases Nat.lt_or_ge k (i - 1) with hlt | hge
      · exact ⟨c', mem_result_left hk hlt, hcid, hcgap⟩
      · have hik : i + 1 ≤ k := by omega
        exact ⟨c', mem_result_right hk hik, hcid, hcgap⟩
  · exact nodup_id_keep h.nodup_chain hp rfl (by omega) (by omega)
  · refine id_bound_result h.id_bound ?_ (le_refl _)
    intro c' hc'
    simp only [List.mem_singleton] at hc'
    rw [hc']
    exact h.id_bound p (List.mem_iff_getElem?.mpr ⟨i - 1, hp⟩)

/-- Invariant preservation for case D of `__remove_near_data` (no gap
neighbour): a fresh gap chunk replaces the removed chunk in the chain
and its id joins the free list. -/
theorem allocInv_caseD (s : MemoryManager) (i : Nat) (c nx : MemoryChunk)
    (h : AllocInv s) (hc : s.chain[i]? = some c) (hocc : c.is_gap = false)
    (hnx : s.chain[i + 1]? = some nx) (hgx : nx.is_gap = false)
    (hprev : ∀ q, 0 < i → s.chain[i - 1]? = some q → q.is_gap = false) :
    AllocInv { s with
        chain := s.chain.take i
          ++ [MemoryChunk.create_empty_chunk c.index_first c.get_length s.count]
          ++ s.chain.drop (i + 1),
        empty := s.empty
          ++ [(MemoryChunk.create_empty_chunk c.index_first c.get_length s.count).id],
        count := s.count + 1 } := by
  have hi1 : i + 1 < s.chain.length := lt_length_of_getElem? hnx
  refine ⟨?_, ?_, ?_, ?_, ?_, ?_⟩
  · refine chain'_surgery h.no_adj (List.chain'_singleton _) ?_ ?_ ?_
    · intro x y hx hy
      obtain ⟨hpos, hxp⟩ := getLast?_take_cases hx (by omega)
      have hxocc := hprev x hpos hxp
      intro hxy
      rw [hxocc] at hxy
      exact Bool.noConfusion hxy.1
    · intro x y hx hy
      have hynx : nx = y := by rw [hnx] at hy; exact Option.some_inj.mp hy
      intro hxy
      rw [← hynx, hgx] at hxy
      exact Bool.noConfusion hxy.2
    · intro x y hM
      exact absurd hM (by simp)
  · intro c' hlast
    rw [getLast?_append_drop _ hi1] at hlast
    exact h.tail_occ c' hlast
  · intro cid hm
    rcases List.mem_append.mp hm with hml | hmr
    · obtain ⟨c', hcmem, hcid, hcgap⟩ := h.mem_empty cid hml
      obtain ⟨k, hk⟩ := List.mem_iff_getElem?.mp hcmem
      have hki : k ≠ i := gap_pos_ne hc hocc hk hcgap
      rcases Nat.lt_or_ge k i with hlt | hge
      · exact ⟨c', mem_result_left hk hlt, hcid, hcgap⟩
      · have hik : i + 1 ≤ k := by omega
        exact ⟨c', mem_result_right hk hik, hcid, hcgap⟩
    · simp only [List.mem_singleton] at hmr
      exact ⟨MemoryChunk.create_empty_chunk c.index_first c.get_length s.count,
        mem_result_mid (by simp), hmr.symm, rfl⟩
  · exact nodup_id_fresh h.nodup_chain (by omega) h.id_bound rfl
  · refine List.nodup_append.mpr ⟨h.nodup_empty, List.nodup_singleton _, ?_⟩
    intro a ha hb
    simp only [List.mem_singleton] at hb
    have hb2 : a = s.count := hb
    obtain ⟨c', hcmem, hcid, hcgap⟩ := h.mem_empty a ha
    have hlt := h.id_bound c' hcmem
    rw [hcid] at hlt
    omega
  · refine id_bound_result h.id_bound ?_ (Nat.le_succ _)
    intro c' hc'
    simp only [List.mem_singleton] at hc'
    rw [hc']
    exact Nat.lt_succ_self _

/-- Preservation of the allocator invariant by `remove` of an occupied
chain chunk. -/
theorem allocInv_remove (s : MemoryManager) (i : Nat) (c : MemoryChunk)
    (hc : s.chain[i]? = some c) (hocc : c.is_gap = false) (h : AllocInv s) :
    AllocInv (s.remove i) := by
  have hilen : i < s.chain.length := lt_length_of_getElem? hc
  cases hnx : s.chain[i + 1]? with
  | none =>
    have htail : s.chain.length = i + 1 := by
      rcases Nat.lt_or_ge (i + 1) s.chain.length with h' | h'
      · rw [List.getElem?_eq_getElem h'] at hnx; exact Option.noConfusion hnx
      · omega
    by_cases hi0 : i = 0
    · subst hi0
      have hrw : s.remove 0 =
          { s with chain := s.chain.take 0,
                   index_last := s.index_last - c.get_length } := by
        simp [MemoryManager.remove, hc, hnx, MemoryManager.remove_last]
      rw [hrw]
      refine ⟨?_, ?_, ?_, ?_, h.nodup_empty, ?_⟩
      · exact List.chain'_nil
      · intro c' hlast
        exact Option.noConfusion hlast
      · intro cid hm
        obtain ⟨c', hcmem, hcid, hcgap⟩ := h.mem_empty cid hm
        obtain ⟨k, hk⟩ := List.mem_iff_getElem?.mp hcmem
        have hklen := lt_length_of_getElem? hk
        have hk0 : k = 0 := by omega
        subst hk0
        exact absurd rfl (gap_pos_ne hc hocc hk hcgap)
      · simp
      · intro c' hc'
        exact absurd hc' (List.not_mem_nil _)
    · have hi : 0 < i := Nat.pos_of_ne_zero hi0
      obtain ⟨p, hp⟩ : ∃ p, s.chain[i - 1]? = some p :=
        ⟨_, List.getElem?_eq_getElem (by omega : i - 1 < s.chain.length)⟩
      cases hpg : p.is_gap with
      | true =>
        have hrw : s.remove i =
            { s with chain := s.chain.take (i - 1),
                     empty := s.empty.erase p.id,
                     index_last := s.index_last - (c.get_length + p.get_length) } := by
          simp [MemoryManager.remove, hc, hnx, hi0, hp,
            MemoryManager.remove_last, hpg]
        rw [hrw]
        refine ⟨chain'_take h.no_adj _, ?_, ?_, ?_, h.nodup_empty.erase _, ?_⟩
        · intro c' hlast
          obtain ⟨hpos, hxp⟩ := getLast?_take_cases hlast (by omega)
          have h12 : i - 1 - 1 = i - 2 := by omega
          rw [h12] at hxp
          have he : i - 2 + 1 = i - 1 := by omega
          exact not_gap_left h.no_adj hxp (by rw [he]; exact hp) hpg
        · intro cid hm
          obtain ⟨hne, hmem⟩ := (h.nodup_empty.mem_erase_iff).mp hm
          obtain ⟨c', hcmem, hcid, hcgap⟩ := h.mem_empty cid hmem
          obtain ⟨k, hk⟩ := List.mem_iff_getElem?.mp hcmem
          have hki : k ≠ i := gap_pos_ne hc hocc hk hcgap
          have hki1 : k ≠ i - 1 := by
            intro he
            subst he
            rw [hk] at hp
            have hcp : c' = p := Option.some_inj.mp hp
            apply hne
            rw [← hcid, hcp]
          have hklen := lt_length_of_getElem? hk
          have hklt : k < i - 1 := by omega
          exact ⟨c', mem_take_of_getElem? hk hklt, hcid, hcgap⟩
        · exact ((List.take_sublist _ _).map _).nodup h.nodup_chain
        · intro c' hc'
          exact h.id_bound c' ((List.take_sublist _ _).subset hc')
      | false =>
        have hrw : s.remove i =
            { s with chain := s.chain.take i,
                     index_last := s.index_last - c.get_length } := by
          simp [MemoryManager.remove, hc, hnx, hi0, hp,
            MemoryManager.remove_last, hpg]
        rw [hrw]
        refine ⟨chain'_take h.no_adj _, ?_, ?_, ?_, h.nodup_empty, ?_⟩
        · intro c' hlast
          rw [getLast?_take_eq s.chain i hi (by omega), hp] at hlast
          have hpc : p = c' := Option.some_inj.mp hlast
          rw [← hpc]
          exact hpg
        · intro cid hm
          obtain ⟨c', hcmem, hcid, hcgap⟩ := h.mem_empty cid hm
          obtain ⟨k, hk⟩ := List.mem_iff_getElem?.mp hcmem
          have hki : k ≠ i := gap_pos_ne hc hocc hk hcgap
          have hklen := lt_length_of_getElem? hk
          have hklt : k < i := by omega
          exact ⟨c', mem_take_of_getElem? hk hklt, hcid, hcgap⟩
        · exact ((List.take_sublist _ _).map _).nodup h.nodup_chain
        · intro c' hc'
          exact h.id_bound c' ((List.take_sublist _ _).subset hc')
  | some nx =>
    cases hgx : nx.is_gap with
    | true =>
      by_cases hi0 : i = 0
      · subst hi0
        have hrw : s.remove 0 =
            { s with chain := s.chain.take 0
                ++ [{ nx with index_first := nx.index_first - c.get_length }]
                ++ s.chain.drop (0 + 2) } := by
          simp [MemoryManager.remove, hc, hnx, hgx, MemoryManager.remove_near_gap]
        rw [hrw]
        exact allocInv_shrink s 0 c nx h hc hocc hnx hgx
          (fun q hq _ => absurd hq (by omega))
      · obtain ⟨p, hp⟩ : ∃ p, s.chain[i - 1]? = some p :=
          ⟨_, List.getElem?_eq_getElem (by omega : i - 1 < s.chain.length)⟩
        cases hpg : p.is_gap with
        | true =>
          have hrw : s.remove i =
              { s with
                  chain := s.chain.take (i - 1)
                    ++ [{ p with index_last := p.index_last + (c.get_length + nx.get_length) }]
                    ++ s.chain.drop (i + 2),
                  empty := s.empty.erase nx.id } := by
            simp [MemoryManager.remove, hc, hnx, hgx, hi0, hp,
              MemoryManager.remove_near_gap, hpg]
          rw [hrw]
          exact allocInv_merge3 s i c nx p h hc hocc hnx hgx
            (Nat.pos_of_ne_zero hi0) hp hpg
        | false =>
          have hrw : s.remove i =
              { s with chain := s.chain.take i
                  ++ [{ nx with index_first := nx.index_first - c.get_length }]
                  ++ s.chain.drop (i + 2) } := by
            simp [MemoryManager.remove, hc, hnx, hgx, hi0, hp,
              MemoryManager.remove_near_gap, hpg]
          rw [hrw]
          refine allocInv_shrink s i c nx h hc hocc hnx hgx ?_
          intro q hq hq2
          rw [hp] at hq2
          rw [← Option.some_inj.mp hq2]
          exact hpg
    | false =>
      by_cases hi0 : i = 0
      · subst hi0
        have hrw : s.remove 0 =
            { s with
                chain := s.chain.take 0
                  ++ [MemoryChunk.create_empty_chunk c.index_first c.get_length s.count]
                  ++ s.chain.drop (0 + 1),
                empty := s.empty
                  ++ [(MemoryChunk.create_empty_chunk c.index_first c.get_length s.count).id],
                count := s.count + 1 } := by
          simp [MemoryManager.remove, hc, hnx, hgx, MemoryManager.remove_near_data]
        rw [hrw]
        exact allocInv_caseD s 0 c nx h hc hocc hnx hgx
          (fun q hq _ => absurd hq (by omega))
      · obtain ⟨p, hp⟩ : ∃ p, s.chain[i - 1]? = some p :=
          ⟨_, List.getElem?_eq_getElem (by omega : i - 1 < s.chain.length)⟩
        cases hpg : p.is_gap with
        | true =>
          have hrw : s.remove i =
              { s with chain := s.chain.take (i - 1)
                  ++ [{ p with index_last := p.index_last + c.get_length }]
                  ++ s.chain.drop (i + 1) } := by
            simp [MemoryManager.remove, hc, hnx, hgx, hi0, hp,
              MemoryManager.remove_near_data, hpg]
          rw [hrw]
          exact allocInv_expand s i c nx p h hc hocc hnx hgx
            (Nat.pos_of_ne_zero hi0) hp hpg
        | false =>
          have hrw : s.remove i =
              { s with
                  chain := s.chain.take i
                    ++ [MemoryChunk.create_empty_chunk c.index_first c.get_length s.count]
                    ++ s.chain.drop (i + 1),
                  empty := s.empty
                    ++ [(MemoryChunk.create_empty_chunk c.index_first c.get_length s.count).id],
                  count := s.count + 1 } := by
            simp [MemoryManager.remove, hc, hnx, hgx, hi0, hp,
              MemoryManager.remove_near_data, hpg]
          rw [hrw]
          refine allocInv_caseD s i c nx h hc hocc hnx hgx ?_
          intro q hq hq2
          rw [hp] at hq2
          rw [← Option.some_inj.mp hq2]
          exact hpg

/-- Preservation of the allocator invariant by a returning
`defrag_quick` call (the only returning call has an empty free list and
changes nothing). -/
theorem allocInv_quick (s s' : MemoryManager) (b : Bool) (h : AllocInv s)
    (hq : s.defrag_quick = some (s', b)) : AllocInv s' := by
  cases hemp : s.empty with
  | nil =>
    simp only [MemoryManager.defrag_quick, hemp] at hq
    injection hq with hp
    injection hp with hs hb
    rw [← hs]
    exact h
  | cons cid rest =>
    simp only [MemoryManager.defrag_quick, hemp] at hq
    exact Option.noConfusion hq

/-- Preservation of the allocator invariant by a returning
`defrag_full` call (the only returning call has an empty free list). -/
theorem allocInv_full (s s' : MemoryManager) (b : Bool) (h : AllocInv s)
    (hq : s.defrag_full = some (s', b)) : AllocInv s' := by
  cases hemp : s.empty with
  | nil =>
    simp only [MemoryManager.defrag_full, hemp] at hq
    injection hq with hp
    injection hp with hs hb
    rw [← hs]
    exact h
  | cons cid rest =>
    simp only [MemoryManager.defrag_full, hemp] at hq
    exact Option.noConfusion hq

/-- The allocator invariant holds at construction. -/
theorem allocInv_init (m k : Nat) : AllocInv (MemoryManager.init m k) :=
  ⟨List.chain'_nil, fun _ hl => Option.noConfusion hl,
   fun _ hm => absurd hm (List.not_mem_nil _), List.nodup_nil, List.nodup_nil,
   fun _ hc => absurd hc (List.not_mem_nil _)⟩

/-- Every reachable allocator state satisfies the invariant bundle. -/
theorem allocInv_reachable (s : MemoryManager) (h : Reachable s) : AllocInv s := by
  induction h with
  | init m k => exact allocInv_init m k
  | alloc s n _ ih => exact allocInv_allocate s n ih
  | rm s i c _ hc hocc ih => exact allocInv_remove s i c hc hocc ih
  | quick s s' b _ hq ih => exact allocInv_quick s s' b ih hq
  | full s s' b _ hq ih => exact allocInv_full s s' b ih hq

/-- C1.  In every reachable allocator state — any finite sequence of
`allocate`, `remove` (of a live occupied chunk), `defrag_quick` and
`defrag_full` calls from a fresh `MemoryManager` — no two adjacent
chunks of the chain are both gaps: for every gap chunk, its successor
(if any) is occupied and its predecessor (if any) is occupied. -/
theorem C1_no_adjacent_gaps (s : MemoryManager) (hr : Reachable s) (i : Nat)
    (a b : MemoryChunk) (ha : s.chain[i]? = some a) (hb : s.chain[i + 1]? = some b) :
    ¬(a.is_gap = true ∧ b.is_gap = true) :=
  chain'_adjacent (allocInv_reachable s hr).no_adj ha hb

/-- Witness for C1: in the reachable state `exC6state` the gap at
position 1 has an occupied chunk at position 0, and the pair is not a
gap-gap adjacency. -/
theorem C1_no_adjacent_gaps_witness :
    exC6state.chain[0]? = some ⟨0, 1, false, 0⟩
    ∧ exC6state.chain[1]? = some ⟨0, 0, true, 3⟩
    ∧ ¬((⟨0, 1, false, 0⟩ : MemoryChunk).is_gap = true
        ∧ (⟨0, 0, true, 3⟩ : MemoryChunk).is_gap = true) :=
  ⟨by decide, by decide,
   C1_no_adjacent_gaps exC6state reach_exC6state 0 ⟨0, 1, false, 0⟩ ⟨0, 0, true, 3⟩
     (by decide) (by decide)⟩
